import Mathlib

/-!
Shallow embedding of the core of the `kambo-hho` optimization framework
(`src/core/bounds.rs`, `src/core/objective.rs`, `src/core/utils.rs`,
`src/core/decoder.rs`, `src/init/initializer.rs`, `src/init/random_init.rs`).

Rust `f64` fitness and coordinate values are modelled as rationals `ℚ`
(the claims under study are order-theoretic); `Vec<T>` as `List`;
fallible constructors as `Except`; the panicking `evaluate_all` as an
`Option`-returning function (`none` models the halt); the caller-owned
random generator as an explicit state machine threaded through calls.
Rust's stable `sort_by` is modelled by `List.mergeSort` (stable by the
core library's stability theorems), sorting an index list exactly as the
source does.
-/

namespace Kambo

/-- Model of Rust `f64::clamp(self, min, max)` (defined behavior requires
`min ≤ max`): returns `min` if `self < min`, `max` if `self > max`, else `self`. -/
def rustClamp (x lo hi : ℚ) : ℚ :=
  if x < lo then lo else if x > hi then hi else x

/-! ## `src/core/objective.rs` -/

/-- The `Objective` trait: a single predicate `better a b`, true when `a`
is strictly preferred over `b`. -/
structure Objective where
  better : ℚ → ℚ → Bool

/-- `Minimization`: `better(a, b) = b > a` in the source. -/
def Minimization : Objective := ⟨fun a b => decide (b > a)⟩

/-- `Maximization`: `better(a, b) = a > b` in the source. -/
def Maximization : Objective := ⟨fun a b => decide (a > b)⟩

/-! ## `src/core/utils.rs` -/

/-- `cmp_fitness::<O>(a, b)` from `src/core/utils.rs`. -/
def cmp_fitness (O : Objective) (a b : ℚ) : Ordering :=
  if O.better a b then Ordering.lt
  else if O.better b a then Ordering.gt
  else Ordering.eq

/-- `best_index_with::<O>(fitness)` from `src/core/utils.rs`: fold over
indices `1..n` carrying the pair (best index, cached best fitness), exactly
as the source's mutable `best_i` / `best_f`. Out-of-range reads (possible
only on empty input, where the source panics) are modelled by `getD _ 0`. -/
def best_index_with (O : Objective) (fitness : List ℚ) : ℕ :=
  (List.foldl
    (fun (s : ℕ × ℚ) i =>
      if O.better (fitness.getD i 0) s.2 then (i, fitness.getD i 0) else s)
    (0, fitness.getD 0 0)
    (List.range' 1 (fitness.length - 1))).1

/-- The scan described by the specification for `best_index`: start with
index 0 as current best, visit remaining indices in increasing order, and
replace the current best only when `better(fitness[i], fitness[best])`. -/
def best_index_scan (O : Objective) (fitness : List ℚ) : ℕ :=
  List.foldl
    (fun best i =>
      if O.better (fitness.getD i 0) (fitness.getD best 0) then i else best)
    0
    (List.range' 1 (fitness.length - 1))

/-- The boolean relation a comparator-based stable sort orders by: index
`i` may stay before index `j` whenever the comparator does not answer
`Greater` on their fitness values. -/
def leIdx (O : Objective) (fitness : List ℚ) (i j : ℕ) : Bool :=
  !(cmp_fitness O (fitness.getD i 0) (fitness.getD j 0) == Ordering.gt)

/-- `leIdx` as a decidable relation. -/
def leIdxR (O : Objective) (fitness : List ℚ) (i j : ℕ) : Prop :=
  leIdx O fitness i j = true

instance (O : Objective) (fitness : List ℚ) : DecidableRel (leIdxR O fitness) :=
  fun i j => inferInstanceAs (Decidable (leIdx O fitness i j = true))

/-- The sorted index list built by `sort_by_fitness_with`:
`idx = (0..n).collect()` sorted by `cmp_fitness` with Rust's stable
`sort_by`, modelled by a stable sort (insertion sort) on the comparator's
non-`gt` relation — observationally equal to any stable sort, which is all
Rust specifies about `sort_by`. -/
def sort_idx (O : Objective) (fitness : List ℚ) : List ℕ :=
  List.insertionSort (leIdxR O fitness) (List.range fitness.length)

/-- `sort_by_fitness_with::<O>(positions, fitness)` from `src/core/utils.rs`:
sort the index list by `cmp_fitness`, then rebuild both sequences in that
index order. The in-place Rust update is modelled by returning the pair of
new sequences. -/
def sort_by_fitness_with (O : Objective) (positions : List (List ℚ))
    (fitness : List ℚ) : List (List ℚ) × List ℚ :=
  ((sort_idx O fitness).map (fun k => positions.getD k []),
   (sort_idx O fitness).map (fun k => fitness.getD k 0))

/-! ## `src/core/bounds.rs` -/

/-- `BoundsError` from `src/core/bounds.rs`. -/
inductive BoundsError where
  | dimMismatch (lo hi : ℕ)
  | invalidInterval (i : ℕ) (lo hi : ℚ)
  | invalidDim (dim : ℕ)
deriving DecidableEq, Repr

/-- `BoundaryPolicy` from `src/core/bounds.rs` (only `Clamp` exists). -/
inductive BoundaryPolicy where
  | clamp
deriving DecidableEq, Repr

/-- The private `Spec` enum of `src/core/bounds.rs`: uniform limits for all
dimensions, or one (lo, hi) pair per dimension. -/
inductive BSpec where
  | uniform (lo hi : ℚ) (dim : ℕ)
  | perDim (lo hi : List ℚ)
deriving DecidableEq, Repr

/-- The `Bounds` struct of `src/core/bounds.rs`. -/
structure Bounds where
  spec : BSpec
  policy : BoundaryPolicy
deriving DecidableEq, Repr

/-- `Bounds::uniform(lo, hi, dim)`. -/
def Bounds.uniform (lo hi : ℚ) (dim : ℕ) : Except BoundsError Bounds :=
  if dim = 0 then Except.error (BoundsError.invalidDim dim)
  else if lo > hi then Except.error (BoundsError.invalidInterval 0 lo hi)
  else Except.ok ⟨BSpec.uniform lo hi dim, BoundaryPolicy.clamp⟩

/-- The `for (i, (&l, &h)) in lo.iter().zip(&hi).enumerate()` validation loop
of `Bounds::per_dim`: first index (with the offending pair) where
`lo[i] > hi[i]`, scanning left to right from index `i`. -/
def firstBad (i : ℕ) : List ℚ → List ℚ → Option (ℕ × ℚ × ℚ)
  | l :: ls, h :: hs =>
      if l > h then some (i, l, h) else firstBad (i + 1) ls hs
  | _, _ => none

/-- `Bounds::per_dim(lo, hi)`: length check, emptiness check, then the
left-to-right interval validation, in source order. -/
def Bounds.per_dim (lo hi : List ℚ) : Except BoundsError Bounds :=
  if lo.length ≠ hi.length then
    Except.error (BoundsError.dimMismatch lo.length hi.length)
  else if lo.isEmpty then Except.error (BoundsError.invalidDim 0)
  else
    match firstBad 0 lo hi with
    | some (i, l, h) => Except.error (BoundsError.invalidInterval i l h)
    | none => Except.ok ⟨BSpec.perDim lo hi, BoundaryPolicy.clamp⟩

/-- `Bounds::with_policy(policy)`: replaces the policy, keeps the spec. -/
def Bounds.with_policy (b : Bounds) (policy : BoundaryPolicy) : Bounds :=
  { b with policy := policy }

/-- `Bounds::dim()`. -/
def Bounds.dim (b : Bounds) : ℕ :=
  match b.spec with
  | BSpec.uniform _ _ dim => dim
  | BSpec.perDim lo _ => lo.length

/-- `Bounds::lo_at(i)` (the source indexes `lo[i]`, panicking out of range;
claims only use `i < dim`, so the default of `getD` is never reached there). -/
def Bounds.lo_at (b : Bounds) (i : ℕ) : ℚ :=
  match b.spec with
  | BSpec.uniform lo _ _ => lo
  | BSpec.perDim lo _ => lo.getD i 0

/-- `Bounds::hi_at(i)`. -/
def Bounds.hi_at (b : Bounds) (i : ℕ) : ℚ :=
  match b.spec with
  | BSpec.uniform _ hi _ => hi
  | BSpec.perDim _ hi => hi.getD i 0

/-- `Bounds::span_at(i) = hi_at(i) - lo_at(i)`. -/
def Bounds.span_at (b : Bounds) (i : ℕ) : ℚ :=
  b.hi_at i - b.lo_at i

/-- `Bounds::project_slice(x)`: clamp every coordinate. The uniform arm
maps `clamp` over `x`; the per-dimension arm loops `i in 0..x.len()`
reading `lo[i]` / `hi[i]` (unchecked in the source, defined only when
`x.len() == dim`, which the relevant theorems assume). -/
def Bounds.project_slice (b : Bounds) (x : List ℚ) : List ℚ :=
  match b.policy, b.spec with
  | BoundaryPolicy.clamp, BSpec.uniform lo hi _ =>
      x.map (fun xi => rustClamp xi lo hi)
  | BoundaryPolicy.clamp, BSpec.perDim lo hi =>
      (List.range x.length).map
        (fun i => rustClamp (x.getD i 0) (lo.getD i 0) (hi.getD i 0))

/-- In the per-dimension shape, the parallel sequences have equal length. -/
def BSpec.lensOk : BSpec → Prop
  | BSpec.perDim lo hi => lo.length = hi.length
  | BSpec.uniform _ _ _ => True

instance : (s : BSpec) → Decidable s.lensOk
  | BSpec.perDim lo hi => inferInstanceAs (Decidable (lo.length = hi.length))
  | BSpec.uniform _ _ _ => inferInstanceAs (Decidable True)

/-- The structural invariant the `Bounds` constructors establish:
positive dimension, per-index ordered intervals and, in the per-dimension
shape, parallel sequences of equal length. -/
def Bounds.WF (b : Bounds) : Prop :=
  1 ≤ b.dim ∧ (∀ i < b.dim, b.lo_at i ≤ b.hi_at i) ∧ b.spec.lensOk

instance (b : Bounds) : Decidable b.WF := by
  unfold Bounds.WF
  exact inferInstance

/-- `DecoderError` from `src/core/decoder.rs`. -/
inductive DecoderError where
  | invalidDimension (expected received : ℕ)
  | outOfBounds (value upperBound : ℕ)
  | unknownError
deriving DecidableEq, Repr

/-- `evaluate_all(decoder, positions)` from `src/core/utils.rs`: maps
`decoder.decode` over all positions; any decode error makes the call panic
(`expect`), modelled by `none`. -/
def evaluate_all (decode : List ℚ → Except DecoderError ℚ)
    (positions : List (List ℚ)) : Option (List ℚ) :=
  positions.mapM (fun x => (decode x).toOption)

/-! ## Random generation: `Bounds::gen_random_vec` and `src/init/` -/

/-- The caller-owned generator (`&mut R` with `R: Rng`): a state machine
whose only operation is `random_range(lo..=hi)`, consuming and returning
the state explicitly. -/
structure Rng (σ : Type) where
  randomRange : ℚ → ℚ → σ → ℚ × σ

/-- One `rng.random_range` draw per (lo, hi) pair, threading the generator
state left to right. -/
def drawList {σ : Type} (rng : Rng σ) : List (ℚ × ℚ) → σ → List ℚ × σ
  | [], s => ([], s)
  | p :: rest, s =>
      let d := rng.randomRange p.1 p.2 s
      let q := drawList rng rest d.2
      (d.1 :: q.1, q.2)

/-- `Bounds::gen_random_vec(rng)`: the uniform arm draws `dim` times from
the one interval; the per-dimension arm draws once per `i in 0..d` from
`lo[i]..=hi[i]`. -/
def Bounds.gen_random_vec {σ : Type} (b : Bounds) (rng : Rng σ) (s : σ) :
    List ℚ × σ :=
  match b.spec with
  | BSpec.uniform lo hi dim => drawList rng (List.replicate dim (lo, hi)) s
  | BSpec.perDim lo hi =>
      drawList rng
        ((List.range lo.length).map (fun i => (lo.getD i 0, hi.getD i 0))) s

/-- `InitError` from `src/init/initializer.rs`. -/
inductive InitError where
  | invalidPopSize (n : ℕ)
deriving DecidableEq, Repr

/-- The `for _ in 0..pop_size` loop of `RandomInitializer`: generate a
random vector, project it, push it; returns the population and the final
generator state. -/
def initLoop {σ : Type} (rng : Rng σ) (b : Bounds) :
    ℕ → σ → List (List ℚ) × σ
  | 0, s => ([], s)
  | n + 1, s =>
      let g := b.gen_random_vec rng s
      let x := b.project_slice g.1
      let q := initLoop rng b n g.2
      (x :: q.1, q.2)

/-- `RandomInitializer::initialize(pop_size, bounds, rng)` (named `initPop`
here): fails with `InvalidPopSize` on a zero population, otherwise builds
`pop_size` projected random vectors. -/
def RandomInitializer.initPop {σ : Type} (popSize : ℕ) (b : Bounds)
    (rng : Rng σ) (s : σ) : Except InitError (List (List ℚ) × σ) :=
  if popSize = 0 then Except.error (InitError.invalidPopSize popSize)
  else Except.ok (initLoop rng b popSize s)

/-- A sequence of calls against one shared generator: each entry asks the
initializer for a population of the given size (the shapes of call the two
claims about reproducibility quantify over). -/
def runCalls {σ : Type} (b : Bounds) (rng : Rng σ) :
    List ℕ → σ → List (Except InitError (List (List ℚ))) × σ
  | [], s => ([], s)
  | n :: rest, s =>
      match RandomInitializer.initPop n b rng s with
      | Except.error e =>
          let q := runCalls b rng rest s
          (Except.error e :: q.1, q.2)
      | Except.ok (l, s') =>
          let q := runCalls b rng rest s'
          (Except.ok l :: q.1, q.2)

/-! ## Helper lemmas -/

lemma foldl_best_fst (O : Objective) (fitness : List ℚ) :
    ∀ (l : List ℕ) (i : ℕ),
      (List.foldl
        (fun (s : ℕ × ℚ) j =>
          if O.better (fitness.getD j 0) s.2 then (j, fitness.getD j 0) else s)
        (i, fitness.getD i 0) l).1
      = List.foldl
          (fun best j =>
            if O.better (fitness.getD j 0) (fitness.getD best 0) then j
            else best)
          i l := by
  intro l
  induction l with
  | nil => intro i; rfl
  | cons j t ih =>
      intro i
      simp only [List.foldl_cons]
      by_cases h : O.better (fitness.getD j 0) (fitness.getD i 0) = true
      · simp only [h, if_true]; exact ih j
      · simp only [Bool.not_eq_true] at h
        simp only [h, Bool.false_eq_true, if_false]
        exact ih i

lemma foldl_best_mem (g : ℕ → ℕ → ℕ) (hg : ∀ b j, g b j = b ∨ g b j = j) :
    ∀ (l : List ℕ) (i : ℕ), List.foldl g i l ∈ i :: l := by
  intro l
  induction l with
  | nil => intro i; simp
  | cons j t ih =>
      intro i
      simp only [List.foldl_cons]
      rcases hg i j with h | h
      · rw [h]
        rcases (List.mem_cons.mp (ih i)) with h' | h'
        · exact List.mem_cons.mpr (Or.inl h')
        · exact List.mem_cons.mpr (Or.inr (List.mem_cons.mpr (Or.inr h')))
      · rw [h]
        rcases (List.mem_cons.mp (ih j)) with h' | h'
        · exact List.mem_cons.mpr (Or.inr (List.mem_cons.mpr (Or.inl h')))
        · exact List.mem_cons.mpr (Or.inr (List.mem_cons.mpr (Or.inr h')))

/-! ## C7 -/

/-- C7: `Minimization.better a b` is exactly `a < b`, `Maximization.better a b`
is exactly `a > b`, and on equal arguments both predicates answer `false` in
both directions (instantiated as `better a a = false`). -/
theorem objective_better_spec (a b : ℚ) :
    Minimization.better a b = decide (a < b)
    ∧ Maximization.better a b = decide (a > b)
    ∧ Minimization.better a a = false
    ∧ Maximization.better a a = false := by
  refine ⟨rfl, rfl, ?_, ?_⟩ <;> simp [Minimization, Maximization]

/-! ## C2 -/

/-- C2: on a non-empty fitness list, `best_index_with` computes exactly the
specified scan (index 0 starts as best, later indices replace it only on a
strict improvement, so the first occurrence wins ties), and the resulting
index is in range. -/
theorem best_index_with_spec (O : Objective) (fitness : List ℚ)
    (h : fitness ≠ []) :
    best_index_with O fitness = best_index_scan O fitness
    ∧ best_index_with O fitness < fitness.length := by
  have hlen : 1 ≤ fitness.length := by
    cases fitness with
    | nil => exact absurd rfl h
    | cons a t => simp
  constructor
  · unfold best_index_with best_index_scan
    exact foldl_best_fst O fitness _ 0
  · unfold best_index_with
    rw [foldl_best_fst O fitness _ 0]
    have hmem := foldl_best_mem
      (fun best j =>
        if O.better (fitness.getD j 0) (fitness.getD best 0) then j else best)
      (by
        intro b j
        by_cases hb : O.better (fitness.getD j 0) (fitness.getD b 0) = true
        · right; dsimp only; rw [if_pos hb]
        · left; dsimp only; rw [if_neg hb])
      (List.range' 1 (fitness.length - 1)) 0
    rcases List.mem_cons.mp hmem with h0 | hr
    · rw [h0]; omega
    · have := List.mem_range'.mp hr
      omega

/-- Witness for C2, at the specification's own example: fitness
`[1000.0, 999.0]` gives index 0 under Maximization and 1 under Minimization. -/
theorem best_index_with_spec_witness :
    best_index_with Maximization [1000, 999]
        = best_index_scan Maximization [1000, 999]
    ∧ best_index_with Maximization [1000, 999] = 0
    ∧ best_index_with Minimization [1000, 999] = 1 :=
  ⟨(best_index_with_spec Maximization [1000, 999] (by decide)).1,
   by decide, by decide⟩

/-! ## C3 -/

lemma evaluate_all_nil (decode : List ℚ → Except DecoderError ℚ) :
    evaluate_all decode [] = some [] := rfl

lemma evaluate_all_cons (decode : List ℚ → Except DecoderError ℚ)
    (x : List ℚ) (t : List (List ℚ)) :
    evaluate_all decode (x :: t)
      = (decode x).toOption.bind
          (fun v => (evaluate_all decode t).map (fun l => v :: l)) := by
  simp only [evaluate_all, List.mapM_cons]
  cases hd : (decode x).toOption with
  | none => rfl
  | some v =>
      cases ht : t.mapM (fun x => (decode x).toOption) <;> rfl

/-- C3: `evaluate_all` maps the decoder over the positions in order — a
successful result has the same length as the input and entry `i` equal to
`decode positions[i]` for every `i`; it succeeds when every decode call
succeeds, and it halts (modelled by `none`) as soon as any position fails
to decode. -/
theorem evaluate_all_spec (decode : List ℚ → Except DecoderError ℚ)
    (positions : List (List ℚ)) :
    (∀ l, evaluate_all decode positions = some l →
      l.length = positions.length
      ∧ ∀ i < positions.length,
          decode (positions.getD i []) = Except.ok (l.getD i 0))
    ∧ ((∀ x ∈ positions, ∃ v, decode x = Except.ok v) →
        ∃ l, evaluate_all decode positions = some l)
    ∧ ((∃ x ∈ positions, ∀ v, decode x ≠ Except.ok v) →
        evaluate_all decode positions = none) := by
  refine ⟨?_, ?_, ?_⟩
  · induction positions with
    | nil =>
        intro l hl
        rw [evaluate_all_nil] at hl
        cases hl
        exact ⟨rfl, by intro i hi; simp at hi⟩
    | cons x t ih =>
        intro l hl
        rw [evaluate_all_cons] at hl
        cases hd : (decode x).toOption with
        | none => rw [hd] at hl; cases hl
        | some v =>
            rw [hd] at hl
            simp only [Option.some_bind] at hl
            cases ht : evaluate_all decode t with
            | none => rw [ht] at hl; cases hl
            | some lt =>
                rw [ht] at hl
                simp only [Option.map_some'] at hl
                cases hl
                have hok : decode x = Except.ok v := by
                  cases hx : decode x with
                  | error e => rw [hx] at hd; cases hd
                  | ok w => rw [hx] at hd; cases hd; rfl
                refine ⟨by simp [(ih lt ht).1], ?_⟩
                intro i hi
                cases i with
                | zero => simpa using hok
                | succ j =>
                    have hj : j < t.length := by
                      simpa [Nat.succ_lt_succ_iff] using hi
                    simpa using (ih lt ht).2 j hj
  · induction positions with
    | nil => intro _; exact ⟨[], rfl⟩
    | cons x t ih =>
        intro hall
        obtain ⟨v, hv⟩ := hall x (List.mem_cons_self x t)
        obtain ⟨lt, hlt⟩ := ih (fun y hy => hall y (List.mem_cons_of_mem x hy))
        refine ⟨v :: lt, ?_⟩
        rw [evaluate_all_cons, hv]
        simp [hlt, Except.toOption]
  · induction positions with
    | nil => rintro ⟨x, hx, -⟩; cases hx
    | cons x t ih =>
        rintro ⟨y, hy, hfail⟩
        rw [evaluate_all_cons]
        rcases List.mem_cons.mp hy with rfl | hyt
        · cases hx : decode y with
          | error e => rfl
          | ok v => exact absurd hx (hfail v)
        · rw [ih ⟨y, hyt, hfail⟩]
          cases (decode x).toOption <;> rfl

/-- Witness for C3: a concrete decoder (head of the vector, failing on the
empty vector) evaluated on an all-good batch and on a batch with a failing
individual. -/
theorem evaluate_all_spec_witness :
    (evaluate_all
        (fun x => if x = [] then Except.error DecoderError.unknownError
                  else Except.ok (x.getD 0 0))
        [[1], [2]] = some [1, 2]
      → ([1, 2] : List ℚ).length = 2)
    ∧ evaluate_all
        (fun x => if x = [] then Except.error DecoderError.unknownError
                  else Except.ok (x.getD 0 0))
        [[1], [], [2]] = none := by
  constructor
  · intro hl
    exact ((evaluate_all_spec
      (fun x => if x = [] then Except.error DecoderError.unknownError
                else Except.ok (x.getD 0 0))
      [[1], [2]]).1 [1, 2] hl).1
  · exact (evaluate_all_spec
      (fun x => if x = [] then Except.error DecoderError.unknownError
                else Except.ok (x.getD 0 0))
      [[1], [], [2]]).2.2
      ⟨[], by decide, by intro v hv; simp at hv⟩

/-! ## C4 and C5: projection -/

lemma getD_lt {α : Type} (l : List α) (d : α) (i : ℕ) (h : i < l.length) :
    l.getD i d = l[i] := by
  rw [List.getD_eq_getElem?_getD, List.getElem?_eq_getElem h]
  rfl

lemma list_eq_of_getD (l₁ l₂ : List ℚ) (hlen : l₁.length = l₂.length)
    (h : ∀ i < l₁.length, l₁.getD i 0 = l₂.getD i 0) : l₁ = l₂ := by
  apply List.ext_getElem hlen
  intro i h₁ h₂
  have := h i h₁
  rwa [getD_lt l₁ 0 i h₁, getD_lt l₂ 0 i h₂] at this

lemma rustClamp_eq_max_min (x lo hi : ℚ) (h : lo ≤ hi) :
    rustClamp x lo hi = max lo (min hi x) := by
  unfold rustClamp
  rcases lt_or_le x lo with h1 | h1
  · rw [if_pos h1,
      max_eq_left (le_trans (min_le_right hi x) (le_of_lt h1))]
  · rw [if_neg (not_lt.mpr h1)]
    rcases lt_or_le hi x with h2 | h2
    · rw [if_pos h2, min_eq_left (le_of_lt h2), max_eq_right h]
    · rw [if_neg (not_lt.mpr h2), min_eq_right h2, max_eq_right h1]

lemma rustClamp_mem (x lo hi : ℚ) (h : lo ≤ hi) :
    lo ≤ rustClamp x lo hi ∧ rustClamp x lo hi ≤ hi := by
  unfold rustClamp
  rcases lt_or_le x lo with h1 | h1
  · rw [if_pos h1]; exact ⟨le_refl lo, h⟩
  · rw [if_neg (not_lt.mpr h1)]
    rcases lt_or_le hi x with h2 | h2
    · rw [if_pos h2]; exact ⟨h, le_refl hi⟩
    · rw [if_neg (not_lt.mpr h2)]; exact ⟨h1, h2⟩

lemma rustClamp_of_mem (x lo hi : ℚ) (h1 : lo ≤ x) (h2 : x ≤ hi) :
    rustClamp x lo hi = x := by
  unfold rustClamp
  rw [if_neg (not_lt.mpr h1), if_neg (not_lt.mpr h2)]

lemma project_slice_length (b : Bounds) (x : List ℚ) :
    (b.project_slice x).length = x.length := by
  unfold Bounds.project_slice
  cases hp : b.policy
  cases hs : b.spec <;> simp

lemma project_slice_getD (b : Bounds) (x : List ℚ) (hlen : x.length = b.dim)
    (i : ℕ) (hi : i < b.dim) :
    (b.project_slice x).getD i 0
      = rustClamp (x.getD i 0) (b.lo_at i) (b.hi_at i) := by
  have hix : i < x.length := by omega
  unfold Bounds.project_slice Bounds.lo_at Bounds.hi_at
  cases hp : b.policy
  cases hs : b.spec with
  | uniform lo hi' dim =>
      rw [getD_lt _ 0 i (by simpa using hix), List.getElem_map,
        getD_lt _ 0 i hix]
  | perDim lo hi' =>
      rw [getD_lt _ 0 i (by simpa using hix), List.getElem_map,
        List.getElem_range]

/-- C4: under the clamp policy (for both the uniform and the per-dimension
shapes), `project_slice` on a vector of the bounds' dimension keeps the
length and replaces every coordinate by `max (lo_at i) (min (hi_at i) value)`. -/
theorem project_slice_clamp_spec (b : Bounds) (x : List ℚ) (hwf : b.WF)
    (hlen : x.length = b.dim) :
    (b.project_slice x).length = x.length
    ∧ ∀ i < x.length,
        (b.project_slice x).getD i 0
          = max (b.lo_at i) (min (b.hi_at i) (x.getD i 0)) := by
  refine ⟨project_slice_length b x, ?_⟩
  intro i hi
  have hid : i < b.dim := by omega
  rw [project_slice_getD b x hlen i hid,
    rustClamp_eq_max_min _ _ _ (hwf.2.1 i hid)]

/-- Witness for C4: per-dimension bounds `[0,1] × [1,2]` on input `[-5, 99]`,
which projects to `[0, 2]`. -/
theorem project_slice_clamp_spec_witness :
    (Bounds.mk (BSpec.perDim [0, 1] [1, 2]) BoundaryPolicy.clamp).project_slice
        [-5, 99] = [0, 2]
    ∧ ((Bounds.mk (BSpec.perDim [0, 1] [1, 2])
          BoundaryPolicy.clamp).project_slice [-5, 99]).length = 2
    ∧ ∀ i < 2,
        ((Bounds.mk (BSpec.perDim [0, 1] [1, 2])
            BoundaryPolicy.clamp).project_slice [-5, 99]).getD i 0
          = max ((Bounds.mk (BSpec.perDim [0, 1] [1, 2])
              BoundaryPolicy.clamp).lo_at i)
              (min ((Bounds.mk (BSpec.perDim [0, 1] [1, 2])
                BoundaryPolicy.clamp).hi_at i) (([-5, 99] : List ℚ).getD i 0)) := by
  have h := project_slice_clamp_spec
    (Bounds.mk (BSpec.perDim [0, 1] [1, 2]) BoundaryPolicy.clamp)
    [-5, 99] (by decide) (by decide)
  exact ⟨by decide, h.1, fun i hi => h.2 i hi⟩

/-- C5: on a vector of the bounds' dimension, projection is idempotent, and
a vector already inside the feasible region is left unchanged coordinate by
coordinate. -/
theorem project_slice_idem_spec (b : Bounds) (x : List ℚ) (hwf : b.WF)
    (hlen : x.length = b.dim) :
    b.project_slice (b.project_slice x) = b.project_slice x
    ∧ ((∀ i < x.length,
          b.lo_at i ≤ x.getD i 0 ∧ x.getD i 0 ≤ b.hi_at i) →
        b.project_slice x = x) := by
  have hplen : (b.project_slice x).length = b.dim := by
    rw [project_slice_length]; exact hlen
  constructor
  · apply list_eq_of_getD
    · rw [project_slice_length, project_slice_length]
    · intro i hi
      have hid : i < b.dim := by
        rw [project_slice_length, project_slice_length, hlen] at hi
        exact hi
      rw [project_slice_getD b _ hplen i hid, project_slice_getD b x hlen i hid]
      have hm := rustClamp_mem (x.getD i 0) (b.lo_at i) (b.hi_at i)
        (hwf.2.1 i hid)
      exact rustClamp_of_mem _ _ _ hm.1 hm.2
  · intro hfeas
    apply list_eq_of_getD
    · rw [project_slice_length]
    · intro i hi
      have hid : i < b.dim := by
        rw [project_slice_length, hlen] at hi
        exact hi
      have hix : i < x.length := by omega
      rw [project_slice_getD b x hlen i hid,
        rustClamp_of_mem _ _ _ (hfeas i hix).1 (hfeas i hix).2]

/-- Witness for C5: uniform bounds `[0, 10]³`: double projection of
`[-5, 4, 99]` equals single projection, and the feasible `[0, 4, 10]` is
unchanged. -/
theorem project_slice_idem_spec_witness :
    (Bounds.mk (BSpec.uniform 0 10 3) BoundaryPolicy.clamp).project_slice
        ((Bounds.mk (BSpec.uniform 0 10 3) BoundaryPolicy.clamp).project_slice
          [-5, 4, 99])
      = (Bounds.mk (BSpec.uniform 0 10 3) BoundaryPolicy.clamp).project_slice
          [-5, 4, 99]
    ∧ (Bounds.mk (BSpec.uniform 0 10 3) BoundaryPolicy.clamp).project_slice
        [0, 4, 10] = [0, 4, 10] := by
  constructor
  · exact (project_slice_idem_spec
      (Bounds.mk (BSpec.uniform 0 10 3) BoundaryPolicy.clamp)
      [-5, 4, 99] (by decide) (by decide)).1
  · exact (project_slice_idem_spec
      (Bounds.mk (BSpec.uniform 0 10 3) BoundaryPolicy.clamp)
      [0, 4, 10] (by decide) (by decide)).2 (by decide)

/-! ## C6: per-dimension constructor validation -/

lemma firstBad_some_spec (lo : List ℚ) :
    ∀ (hi : List ℚ) (k i : ℕ) (l h : ℚ),
      lo.length = hi.length →
      firstBad k lo hi = some (i, l, h) →
      k ≤ i ∧ i - k < lo.length
        ∧ l = lo.getD (i - k) 0 ∧ h = hi.getD (i - k) 0
        ∧ hi.getD (i - k) 0 < lo.getD (i - k) 0
        ∧ ∀ j < i - k, lo.getD j 0 ≤ hi.getD j 0 := by
  induction lo with
  | nil =>
      intro hi k i l h hlen hf
      cases hi with
      | nil => cases hf
      | cons b hs => simp at hlen
  | cons a ls ih =>
      intro hi k i l h hlen hf
      cases hi with
      | nil => simp at hlen
      | cons b hs =>
          simp only [firstBad] at hf
          by_cases hab : a > b
          · rw [if_pos hab] at hf
            cases hf
            refine ⟨le_refl k, ?_, ?_, ?_, ?_, ?_⟩
            · simp
            · simp
            · simp
            · simpa using hab
            · intro j hj; omega
          · rw [if_neg hab] at hf
            obtain ⟨h1, h2, h3, h4, h5, h6⟩ :=
              ih hs (k + 1) i l h (by simpa using hlen) hf
            have hik : i - k = (i - (k + 1)) + 1 := by omega
            rw [hik]
            simp only [List.getD_cons_succ, List.length_cons]
            refine ⟨by omega, by omega, h3, h4, h5, ?_⟩
            intro j hj
            cases j with
            | zero => simpa using not_lt.mp hab
            | succ j' =>
                simp only [List.getD_cons_succ]
                exact h6 j' (by omega)

lemma firstBad_none_iff (lo : List ℚ) :
    ∀ (hi : List ℚ) (k : ℕ), lo.length = hi.length →
      (firstBad k lo hi = none
        ↔ ∀ i < lo.length, lo.getD i 0 ≤ hi.getD i 0) := by
  induction lo with
  | nil =>
      intro hi k hlen
      cases hi with
      | nil => simp [firstBad]
      | cons b hs => simp at hlen
  | cons a ls ih =>
      intro hi k hlen
      cases hi with
      | nil => simp at hlen
      | cons b hs =>
          simp only [firstBad]
          by_cases hab : a > b
          · rw [if_pos hab]
            constructor
            · intro hf; cases hf
            · intro hall
              have h0 := hall 0 (by simp)
              simp only [List.getD_cons_zero] at h0
              exact absurd hab (not_lt.mpr h0)
          · rw [if_neg hab]
            rw [ih hs (k + 1) (by simpa using hlen)]
            constructor
            · intro hall i hilt
              cases i with
              | zero => simpa using not_lt.mp hab
              | succ j =>
                  simp only [List.getD_cons_succ]
                  refine hall j ?_
                  simp only [List.length_cons] at hilt
                  omega
            · intro hall i hilt
              have := hall (i + 1) (by simp only [List.length_cons]; omega)
              simpa using this

/-- C6: `Bounds::per_dim` validates strictly left to right — unequal lengths
give `DimMismatch`, then emptiness gives `InvalidDim`, then any reported
`InvalidInterval` carries the smallest offending index with its interval
(and such an error is reported whenever a violation exists); the
constructor succeeds exactly on equal-length, non-empty, pointwise-ordered
input. -/
theorem per_dim_validation_spec (lo hi : List ℚ) :
    (lo.length ≠ hi.length →
      Bounds.per_dim lo hi
        = Except.error (BoundsError.dimMismatch lo.length hi.length))
    ∧ (lo.length = hi.length → lo = [] →
      Bounds.per_dim lo hi = Except.error (BoundsError.invalidDim 0))
    ∧ (∀ i l h,
        Bounds.per_dim lo hi
            = Except.error (BoundsError.invalidInterval i l h) →
        i < lo.length ∧ l = lo.getD i 0 ∧ h = hi.getD i 0
          ∧ hi.getD i 0 < lo.getD i 0
          ∧ ∀ j < i, lo.getD j 0 ≤ hi.getD j 0)
    ∧ (lo.length = hi.length → lo ≠ [] →
        (∃ i < lo.length, hi.getD i 0 < lo.getD i 0) →
        ∃ i l h, Bounds.per_dim lo hi
          = Except.error (BoundsError.invalidInterval i l h))
    ∧ ((∃ b, Bounds.per_dim lo hi = Except.ok b)
        ↔ lo.length = hi.length ∧ lo ≠ []
            ∧ ∀ i < lo.length, lo.getD i 0 ≤ hi.getD i 0) := by
  refine ⟨?_, ?_, ?_, ?_, ?_⟩
  · intro hne
    unfold Bounds.per_dim
    rw [if_pos hne]
  · intro heq hnil
    unfold Bounds.per_dim
    rw [if_neg (by simpa using heq), if_pos (by simp [hnil])]
  · intro i l h hres
    unfold Bounds.per_dim at hres
    by_cases hne : lo.length ≠ hi.length
    · rw [if_pos hne] at hres; cases hres
    · rw [if_neg hne] at hres
      push_neg at hne
      by_cases hemp : lo.isEmpty = true
      · rw [if_pos hemp] at hres; cases hres
      · rw [if_neg hemp] at hres
        cases hfb : firstBad 0 lo hi with
        | none => rw [hfb] at hres; cases hres
        | some t =>
            obtain ⟨i', l', h'⟩ := t
            rw [hfb] at hres
            simp only [Except.error.injEq, BoundsError.invalidInterval.injEq]
              at hres
            obtain ⟨rfl, rfl, rfl⟩ := hres
            have := firstBad_some_spec lo hi 0 i' l' h' hne hfb
            simp only [Nat.sub_zero] at this
            exact ⟨this.2.1, this.2.2.1, this.2.2.2.1, this.2.2.2.2.1,
              this.2.2.2.2.2⟩
  · intro heq hnil hbad
    unfold Bounds.per_dim
    rw [if_neg (by simpa using heq), if_neg (by simpa using hnil)]
    cases hfb : firstBad 0 lo hi with
    | none =>
        exfalso
        obtain ⟨i, hilt, hviol⟩ := hbad
        exact absurd ((firstBad_none_iff lo hi 0 heq).mp hfb i hilt)
          (not_le.mpr hviol)
    | some t =>
        obtain ⟨i', l', h'⟩ := t
        exact ⟨i', l', h', rfl⟩
  · constructor
    · rintro ⟨b, hb⟩
      unfold Bounds.per_dim at hb
      by_cases hne : lo.length ≠ hi.length
      · rw [if_pos hne] at hb; cases hb
      · rw [if_neg hne] at hb
        push_neg at hne
        by_cases hemp : lo.isEmpty = true
        · rw [if_pos hemp] at hb; cases hb
        · rw [if_neg hemp] at hb
          cases hfb : firstBad 0 lo hi with
          | none =>
              exact ⟨hne, by simpa using hemp,
                (firstBad_none_iff lo hi 0 hne).mp hfb⟩
          | some t =>
              obtain ⟨i', l', h'⟩ := t
              rw [hfb] at hb
              cases hb
    · rintro ⟨heq, hnil, hall⟩
      unfold Bounds.per_dim
      rw [if_neg (by simpa using heq), if_neg (by simpa using hnil),
        (firstBad_none_iff lo hi 0 heq).mpr hall]
      exact ⟨_, rfl⟩

/-- Witness for C6, at the specification's own examples:
`per_dim [] []` fails with `InvalidDim` and `per_dim [1,2] [1,2,3]` fails
with `DimMismatch{2,3}`. -/
theorem per_dim_validation_spec_witness :
    Bounds.per_dim [] [] = Except.error (BoundsError.invalidDim 0)
    ∧ Bounds.per_dim [1, 2] [1, 2, 3]
        = Except.error (BoundsError.dimMismatch 2 3) :=
  ⟨(per_dim_validation_spec [] []).2.1 rfl rfl,
   (per_dim_validation_spec [1, 2] [1, 2, 3]).1 (by decide)⟩

/-! ## C10: the Bounds invariant -/

/-- The `Bounds` values a client can obtain: a successful `uniform` or
`per_dim` construction followed by any chain of `with_policy` calls. -/
inductive ReachableBounds : Bounds → Prop where
  | of_uniform (lo hi : ℚ) (d : ℕ) (b : Bounds) :
      Bounds.uniform lo hi d = Except.ok b → ReachableBounds b
  | of_per_dim (lo hi : List ℚ) (b : Bounds) :
      Bounds.per_dim lo hi = Except.ok b → ReachableBounds b
  | of_with_policy (b : Bounds) (p : BoundaryPolicy) :
      ReachableBounds b → ReachableBounds (b.with_policy p)

lemma uniform_ok_wf (lo hi : ℚ) (d : ℕ) (b : Bounds)
    (hb : Bounds.uniform lo hi d = Except.ok b) : b.WF := by
  unfold Bounds.uniform at hb
  by_cases hd : d = 0
  · rw [if_pos hd] at hb; cases hb
  · rw [if_neg hd] at hb
    by_cases hlohi : lo > hi
    · rw [if_pos hlohi] at hb; cases hb
    · rw [if_neg hlohi] at hb
      cases hb
      refine ⟨by simp [Bounds.dim]; omega, ?_, trivial⟩
      intro i _
      simpa [Bounds.lo_at, Bounds.hi_at] using not_lt.mp hlohi

lemma per_dim_ok_wf (lo hi : List ℚ) (b : Bounds)
    (hb : Bounds.per_dim lo hi = Except.ok b) : b.WF := by
  unfold Bounds.per_dim at hb
  by_cases hne : lo.length ≠ hi.length
  · rw [if_pos hne] at hb; cases hb
  · rw [if_neg hne] at hb
    push_neg at hne
    by_cases hemp : lo.isEmpty = true
    · rw [if_pos hemp] at hb; cases hb
    · rw [if_neg hemp] at hb
      cases hfb : firstBad 0 lo hi with
      | none =>
          rw [hfb] at hb
          cases hb
          have hnil : lo ≠ [] := by simpa using hemp
          have hlen1 : 1 ≤ lo.length := by
            cases lo with
            | nil => exact absurd rfl hnil
            | cons a t => simp
          refine ⟨by simpa [Bounds.dim] using hlen1, ?_, hne⟩
          intro i hilt
          simpa [Bounds.lo_at, Bounds.hi_at] using
            (firstBad_none_iff lo hi 0 hne).mp hfb i
              (by simpa [Bounds.dim] using hilt)
      | some t =>
          obtain ⟨i', l', h'⟩ := t
          rw [hfb] at hb
          cases hb

lemma with_policy_wf (b : Bounds) (p : BoundaryPolicy) (hwf : b.WF) :
    (b.with_policy p).WF := by
  have hspec : (b.with_policy p).spec = b.spec := rfl
  obtain ⟨h1, h2, h3⟩ := hwf
  refine ⟨?_, ?_, ?_⟩
  · simpa only [Bounds.dim, hspec] using h1
  · intro i hi
    have hi' : i < b.dim := by simpa only [Bounds.dim, hspec] using hi
    simpa only [Bounds.lo_at, Bounds.hi_at, hspec] using h2 i hi'
  · simpa only [hspec] using h3

/-- C10: every `Bounds` value reachable through the public constructors and
`with_policy` chains satisfies the invariant (positive dimension and
`lo_at i ≤ hi_at i` on every coordinate, with parallel sequences of equal
length in the per-dimension shape), and hence has non-negative spans. -/
theorem bounds_invariant_reachable (b : Bounds) (hr : ReachableBounds b) :
    b.WF ∧ ∀ i < b.dim, 0 ≤ b.span_at i := by
  have hwf : b.WF := by
    induction hr with
    | of_uniform lo hi d b hb => exact uniform_ok_wf lo hi d b hb
    | of_per_dim lo hi b hb => exact per_dim_ok_wf lo hi b hb
    | of_with_policy b p _ ih => exact with_policy_wf b p ih
  refine ⟨hwf, ?_⟩
  intro i hi
  have := hwf.2.1 i hi
  unfold Bounds.span_at
  linarith

/-- Witness for C10: uniform bounds `[0, 10]³` with a re-applied clamp
policy satisfy the invariant. -/
theorem bounds_invariant_reachable_witness :
    ((Bounds.mk (BSpec.uniform 0 10 3) BoundaryPolicy.clamp).with_policy
        BoundaryPolicy.clamp).WF
    ∧ ∀ i < ((Bounds.mk (BSpec.uniform 0 10 3)
          BoundaryPolicy.clamp).with_policy BoundaryPolicy.clamp).dim,
        0 ≤ ((Bounds.mk (BSpec.uniform 0 10 3)
          BoundaryPolicy.clamp).with_policy BoundaryPolicy.clamp).span_at i :=
  bounds_invariant_reachable _
    (ReachableBounds.of_with_policy _ BoundaryPolicy.clamp
      (ReachableBounds.of_uniform 0 10 3 _ rfl))

/-! ## C8: the random initializer -/

lemma drawList_length {σ : Type} (rng : Rng σ) :
    ∀ (ps : List (ℚ × ℚ)) (s : σ), (drawList rng ps s).1.length = ps.length := by
  intro ps
  induction ps with
  | nil => intro s; rfl
  | cons p rest ih =>
      intro s
      simp only [drawList, List.length_cons]
      rw [ih]

lemma gen_random_vec_length {σ : Type} (b : Bounds) (rng : Rng σ) (s : σ) :
    (b.gen_random_vec rng s).1.length = b.dim := by
  unfold Bounds.gen_random_vec Bounds.dim
  cases hs : b.spec with
  | uniform lo hi dim => rw [drawList_length]; simp
  | perDim lo hi => rw [drawList_length]; simp

lemma project_slice_feasible (b : Bounds) (y : List ℚ) (hwf : b.WF)
    (hlen : y.length = b.dim) :
    ∀ i < b.dim,
      b.lo_at i ≤ (b.project_slice y).getD i 0
      ∧ (b.project_slice y).getD i 0 ≤ b.hi_at i := by
  intro i hi
  rw [project_slice_getD b y hlen i hi]
  exact rustClamp_mem _ _ _ (hwf.2.1 i hi)

lemma initLoop_spec {σ : Type} (rng : Rng σ) (b : Bounds) (hwf : b.WF) :
    ∀ (n : ℕ) (s : σ),
      (initLoop rng b n s).1.length = n
      ∧ ∀ v ∈ (initLoop rng b n s).1,
          v.length = b.dim
          ∧ ∀ i < b.dim, b.lo_at i ≤ v.getD i 0 ∧ v.getD i 0 ≤ b.hi_at i := by
  intro n
  induction n with
  | zero => intro s; exact ⟨rfl, by intro v hv; cases hv⟩
  | succ m ih =>
      intro s
      simp only [initLoop, List.length_cons]
      constructor
      · rw [(ih _).1]
      · intro v hv
        rcases List.mem_cons.mp hv with rfl | hvt
        · have hg := gen_random_vec_length b rng s
          refine ⟨?_, ?_⟩
          · rw [project_slice_length]; exact hg
          · exact project_slice_feasible b _ hwf hg
        · exact (ih _).2 v hvt

/-- C8: `RandomInitializer` (modelled by `initPop`) fails with
`InvalidPopSize` exactly on a zero population size, and on a positive size
returns exactly that many vectors, each of the bounds' dimension and each
feasible coordinate-wise. -/
theorem random_initializer_spec {σ : Type} (b : Bounds) (rng : Rng σ)
    (s : σ) (hwf : b.WF) :
    RandomInitializer.initPop 0 b rng s
        = Except.error (InitError.invalidPopSize 0)
    ∧ ∀ n, 0 < n →
        ∃ l s', RandomInitializer.initPop n b rng s = Except.ok (l, s')
          ∧ l.length = n
          ∧ ∀ v ∈ l, v.length = b.dim
              ∧ ∀ i < b.dim,
                  b.lo_at i ≤ v.getD i 0 ∧ v.getD i 0 ≤ b.hi_at i := by
  constructor
  · rfl
  · intro n hn
    unfold RandomInitializer.initPop
    rw [if_neg (by omega)]
    exact ⟨(initLoop rng b n s).1, (initLoop rng b n s).2, rfl,
      (initLoop_spec rng b hwf n s).1, (initLoop_spec rng b hwf n s).2⟩

/-- Witness for C8: a counting generator always answering the lower bound,
on uniform bounds `[0, 10]²`: population size 0 fails with
`InvalidPopSize(0)` and size 2 yields 2 feasible vectors. -/
theorem random_initializer_spec_witness :
    RandomInitializer.initPop 0
        (Bounds.mk (BSpec.uniform 0 10 2) BoundaryPolicy.clamp)
        (Rng.mk (fun lo _ s => (lo, s + 1))) (0 : ℕ)
      = Except.error (InitError.invalidPopSize 0)
    ∧ ∃ l s', RandomInitializer.initPop 2
        (Bounds.mk (BSpec.uniform 0 10 2) BoundaryPolicy.clamp)
        (Rng.mk (fun lo _ s => (lo, s + 1))) (0 : ℕ) = Except.ok (l, s')
      ∧ l.length = 2 :=
  have h := random_initializer_spec
    (Bounds.mk (BSpec.uniform 0 10 2) BoundaryPolicy.clamp)
    (Rng.mk (fun lo _ s => (lo, s + 1))) (0 : ℕ) (by decide)
  ⟨h.1, by
    obtain ⟨l, s', hok, hlen, -⟩ := h.2 2 (by omega)
    exact ⟨l, s', hok, hlen⟩⟩

/-! ## C9: reproducibility -/

/-- C9: random vector generation and initialization are deterministic in
the passed-in generator — two runs from equal generators and equal states,
making the same call or the same whole call sequence, produce identical
results (the model draws randomness from no other source). -/
theorem rng_determinism {σ : Type} (b : Bounds) (rng₁ rng₂ : Rng σ)
    (s₁ s₂ : σ) (hrng : rng₁ = rng₂) (hs : s₁ = s₂) (n : ℕ)
    (calls : List ℕ) :
    b.gen_random_vec rng₁ s₁ = b.gen_random_vec rng₂ s₂
    ∧ RandomInitializer.initPop n b rng₁ s₁
        = RandomInitializer.initPop n b rng₂ s₂
    ∧ runCalls b rng₁ calls s₁ = runCalls b rng₂ calls s₂ := by
  subst hrng
  subst hs
  exact ⟨rfl, rfl, rfl⟩

/-- Witness for C9: two copies of the same seeded counting generator run
the call sequence `[1, 2]` identically. -/
theorem rng_determinism_witness :
    (Bounds.mk (BSpec.uniform 0 10 2)
        BoundaryPolicy.clamp).gen_random_vec
        (Rng.mk (fun lo _ s => (lo, s + 1))) (5 : ℕ)
      = (Bounds.mk (BSpec.uniform 0 10 2)
          BoundaryPolicy.clamp).gen_random_vec
          (Rng.mk (fun lo _ s => (lo, s + 1))) (5 : ℕ)
    ∧ RandomInitializer.initPop 3
        (Bounds.mk (BSpec.uniform 0 10 2) BoundaryPolicy.clamp)
        (Rng.mk (fun lo _ s => (lo, s + 1))) (5 : ℕ)
      = RandomInitializer.initPop 3
          (Bounds.mk (BSpec.uniform 0 10 2) BoundaryPolicy.clamp)
          (Rng.mk (fun lo _ s => (lo, s + 1))) (5 : ℕ)
    ∧ runCalls (Bounds.mk (BSpec.uniform 0 10 2) BoundaryPolicy.clamp)
        (Rng.mk (fun lo _ s => (lo, s + 1))) [1, 2] (5 : ℕ)
      = runCalls (Bounds.mk (BSpec.uniform 0 10 2) BoundaryPolicy.clamp)
          (Rng.mk (fun lo _ s => (lo, s + 1))) [1, 2] (5 : ℕ) :=
  rng_determinism (Bounds.mk (BSpec.uniform 0 10 2) BoundaryPolicy.clamp)
    (Rng.mk (fun lo _ s => (lo, s + 1)))
    (Rng.mk (fun lo _ s => (lo, s + 1))) (5 : ℕ) (5 : ℕ) rfl rfl 3 [1, 2]

/-! ## C1: stable sorting by fitness -/

lemma cmp_fitness_eq_gt_iff (O : Objective)
    (hasym : ∀ a b, O.better a b = true → O.better b a = false) (a b : ℚ) :
    cmp_fitness O a b = Ordering.gt ↔ O.better b a = true := by
  unfold cmp_fitness
  by_cases h1 : O.better a b = true
  · rw [if_pos h1]
    constructor
    · intro h; exact Ordering.noConfusion h
    · intro h2
      rw [hasym a b h1] at h2
      exact Bool.noConfusion h2
  · rw [if_neg h1]
    by_cases h2 : O.better b a = true
    · rw [if_pos h2]
      exact ⟨fun _ => h2, fun _ => rfl⟩
    · rw [if_neg h2]
      constructor
      · intro h; exact Ordering.noConfusion h
      · intro h; exact absurd h h2

lemma leIdxR_iff (O : Objective) (fitness : List ℚ)
    (hasym : ∀ a b, O.better a b = true → O.better b a = false) (i j : ℕ) :
    leIdxR O fitness i j
      ↔ O.better (fitness.getD j 0) (fitness.getD i 0) = false := by
  have hgt := cmp_fitness_eq_gt_iff O hasym (fitness.getD i 0) (fitness.getD j 0)
  unfold leIdxR leIdx
  constructor
  · intro h
    rcases Bool.eq_false_or_eq_true
      (O.better (fitness.getD j 0) (fitness.getD i 0)) with ht | hf
    · exfalso
      rw [hgt.mpr ht] at h
      exact Bool.noConfusion h
    · exact hf
  · intro hfalse
    have hne : cmp_fitness O (fitness.getD i 0) (fitness.getD j 0)
        ≠ Ordering.gt := by
      intro hc
      rw [hgt.mp hc] at hfalse
      exact Bool.noConfusion hfalse
    cases hcv : cmp_fitness O (fitness.getD i 0) (fitness.getD j 0) with
    | lt => rfl
    | eq => rfl
    | gt => exact absurd hcv hne

lemma leIdxR_trans (O : Objective) (fitness : List ℚ)
    (hasym : ∀ a b, O.better a b = true → O.better b a = false)
    (hnt : ∀ a b c, O.better b a = false → O.better c b = false →
      O.better c a = false) :
    ∀ (a b c : ℕ), leIdxR O fitness a b → leIdxR O fitness b c →
      leIdxR O fitness a c := by
  intro a b c hab hbc
  rw [leIdxR_iff O fitness hasym] at hab hbc ⊢
  exact hnt _ _ _ hab hbc

lemma leIdxR_total (O : Objective) (fitness : List ℚ)
    (hasym : ∀ a b, O.better a b = true → O.better b a = false) :
    ∀ (a b : ℕ), leIdxR O fitness a b ∨ leIdxR O fitness b a := by
  intro a b
  by_cases hab : leIdxR O fitness a b
  · exact Or.inl hab
  · right
    rw [leIdxR_iff O fitness hasym] at hab ⊢
    have ht : O.better (fitness.getD b 0) (fitness.getD a 0) = true := by
      rcases Bool.eq_false_or_eq_true
        (O.better (fitness.getD b 0) (fitness.getD a 0)) with h | h
      · exact h
      · exact absurd h hab
    exact hasym _ _ ht

lemma pair_sublist_range (i j : ℕ) (hij : i < j) :
    ∀ n, j < n → List.Sublist [i, j] (List.range n) := by
  intro n
  induction n with
  | zero => intro h; exact absurd h (Nat.not_lt_zero j)
  | succ m ih =>
      intro hj
      rw [List.range_succ]
      by_cases hjm : j < m
      · exact (ih hjm).trans (List.sublist_append_left _ _)
      · have hjm' : j = m := by omega
        subst hjm'
        exact List.Sublist.append
          (List.singleton_sublist.mpr (List.mem_range.mpr hij))
          (List.Sublist.refl [j])

lemma map_getD_range {α : Type} (l : List α) (d : α) :
    (List.range l.length).map (fun k => l.getD k d) = l := by
  apply List.ext_getElem (by simp)
  intro i h1 h2
  simp only [List.getElem_map, List.getElem_range]
  exact getD_lt l d i h2

lemma range_map_pair_eq_zip (positions : List (List ℚ)) (fitness : List ℚ)
    (hlen : positions.length = fitness.length) :
    (List.range fitness.length).map
        (fun k => (positions.getD k [], fitness.getD k 0))
      = positions.zip fitness := by
  apply List.ext_getElem
  · simp [hlen]
  · intro i h1 h2
    simp only [List.getElem_map, List.getElem_range, List.getElem_zip]
    have hi : i < fitness.length := by simpa using h1
    rw [getD_lt positions [] i (by omega), getD_lt fitness 0 i hi]

/-- C1: `sort_by_fitness_with` applies one shared index permutation (a
permutation of `0..n`) to both sequences, so each output sequence is a
permutation of its input and the position/fitness pairing is preserved;
the output fitness is ordered best to worst (no later entry strictly
better under `O.better` than an earlier one), and indices whose fitness
values tie under the comparator keep their original relative order in the
permutation (stability). The objective is assumed lawful, as §4.2 of the
specification demands: `better` asymmetric and negatively transitive
(both concrete objectives qualify). -/
theorem sort_by_fitness_with_spec (O : Objective)
    (hasym : ∀ a b, O.better a b = true → O.better b a = false)
    (hnt : ∀ a b c, O.better b a = false → O.better c b = false →
      O.better c a = false)
    (positions : List (List ℚ)) (fitness : List ℚ)
    (hlen : positions.length = fitness.length) :
    (sort_by_fitness_with O positions fitness).1
        = (sort_idx O fitness).map (fun k => positions.getD k [])
    ∧ (sort_by_fitness_with O positions fitness).2
        = (sort_idx O fitness).map (fun k => fitness.getD k 0)
    ∧ (sort_idx O fitness).Perm (List.range fitness.length)
    ∧ ((sort_by_fitness_with O positions fitness).2).Perm fitness
    ∧ ((sort_by_fitness_with O positions fitness).1).Perm positions
    ∧ ((sort_by_fitness_with O positions fitness).1.zip
        (sort_by_fitness_with O positions fitness).2).Perm
        (positions.zip fitness)
    ∧ ((sort_by_fitness_with O positions fitness).2).Pairwise
        (fun a b => O.better b a = false)
    ∧ ∀ i j, i < j → j < fitness.length →
        cmp_fitness O (fitness.getD i 0) (fitness.getD j 0) = Ordering.eq →
        List.Sublist [i, j] (sort_idx O fitness) := by
  have hperm : (sort_idx O fitness).Perm (List.range fitness.length) :=
    List.perm_insertionSort (leIdxR O fitness) (List.range fitness.length)
  refine ⟨rfl, rfl, hperm, ?_, ?_, ?_, ?_, ?_⟩
  · have h := hperm.map (fun k => fitness.getD k 0)
    rwa [map_getD_range fitness 0] at h
  · have h := hperm.map (fun k => positions.getD k [])
    have h2 : (List.range fitness.length).map (fun k => positions.getD k [])
        = positions := by
      rw [← hlen]
      exact map_getD_range positions []
    rwa [h2] at h
  · show List.Perm
        (((sort_idx O fitness).map (fun k => positions.getD k [])).zip
          ((sort_idx O fitness).map (fun k => fitness.getD k 0)))
        (positions.zip fitness)
    rw [List.zip_map']
    have h := hperm.map (fun k => (positions.getD k [], fitness.getD k 0))
    rwa [range_map_pair_eq_zip positions fitness hlen] at h
  · haveI : IsTrans ℕ (leIdxR O fitness) := ⟨leIdxR_trans O fitness hasym hnt⟩
    haveI : IsTotal ℕ (leIdxR O fitness) := ⟨leIdxR_total O fitness hasym⟩
    have hs : (sort_idx O fitness).Pairwise (leIdxR O fitness) :=
      List.sorted_insertionSort (leIdxR O fitness) (List.range fitness.length)
    have hp : (sort_idx O fitness).Pairwise
        (fun i j => O.better (fitness.getD j 0) (fitness.getD i 0) = false) :=
      List.Pairwise.imp
        (fun hab => (leIdxR_iff O fitness hasym _ _).mp hab) hs
    exact List.pairwise_map.mpr hp
  · intro i j hij hjn hcmp
    have hle : leIdxR O fitness i j := by
      unfold leIdxR leIdx
      rw [hcmp]
      rfl
    exact List.pair_sublist_insertionSort hle (pair_sublist_range i j hij _ hjn)

/-- Witness for C1, at the specification's own example: Minimization on
positions `[[10],[20],[30]]` with fitness `[3,1,2]` keeps both sequences
aligned and yields positions `[[20],[30],[10]]` with fitness `[1,2,3]`. -/
theorem sort_by_fitness_with_spec_witness :
    ((sort_by_fitness_with Minimization [[10], [20], [30]] [3, 1, 2]).2).Perm
        [3, 1, 2]
    ∧ ((sort_by_fitness_with Minimization [[10], [20], [30]] [3, 1, 2]).2).Pairwise
        (fun a b => Minimization.better b a = false)
    ∧ sort_by_fitness_with Minimization [[10], [20], [30]] [3, 1, 2]
        = ([[20], [30], [10]], [1, 2, 3]) := by
  have h := sort_by_fitness_with_spec Minimization
    (by
      intro a b hab
      simp only [Minimization, decide_eq_true_eq] at hab
      simp only [Minimization, decide_eq_false_iff_not]
      intro hba
      exact absurd (lt_trans hab hba) (lt_irrefl a))
    (by
      intro a b c h1 h2
      simp only [Minimization, decide_eq_false_iff_not, not_lt] at h1 h2 ⊢
      exact le_trans h1 h2)
    [[10], [20], [30]] [3, 1, 2] (by decide)
  exact ⟨h.2.2.2.1, h.2.2.2.2.2.2.1, by decide⟩

end Kambo
